import Mathlib

/-!
Shallow embedding of the hybrid RAG retrieval core:
`src/indexing/chunker.py`, `src/retrieval/bm25.py`,
`src/retrieval/hybrid_retriever.py` (plus the pure shape of
`src/indexing/vector_store.similarity_search`).

Python strings are modelled as `List Char` (Python `len`, slicing and
`' '.join` act on characters); float scores are modelled as `ℚ`.
-/

namespace RagCore

/-! ### Constants from `chunker.py` -/

def CHARS_PER_TOKEN : Nat := 4
def TARGET_TOKENS : Nat := 300
def OVERLAP_TOKENS : Nat := 30
def TARGET_CHARS : Nat := TARGET_TOKENS * CHARS_PER_TOKEN
def OVERLAP_CHARS : Nat := OVERLAP_TOKENS * CHARS_PER_TOKEN
def MAX_CHUNK_CHARS : Nat := 6000

/-! ### `_split_into_sentences` -/

/-- Python `\s` on ASCII text (the whitespace class used by `str.strip` too). -/
def isPySpace (c : Char) : Bool :=
  c == ' ' || c == '\t' || c == '\n' || c == '\r' || c == '\x0b' || c == '\x0c'

/-- Sentence terminators of the regex `([.!?])\s+`. -/
def isTerm (c : Char) : Bool :=
  c == '.' || c == '!' || c == '?'

def splitTok : List Char := '|' :: 'S' :: 'P' :: 'L' :: 'I' :: 'T' :: '|' :: []

def headIsSpace : List Char → Bool
  | [] => false
  | c :: _ => isPySpace c

/-- `re.sub(r'([.!?])\s+', r'\1|SPLIT|', text)`: each terminator followed by a
maximal whitespace run becomes terminator + `|SPLIT|`.  The `Bool` flag is true
while consuming the whitespace run of a match. -/
def sub1Go : Bool → List Char → List Char
  | _, [] => []
  | skipping, c :: rest =>
    if skipping && isPySpace c then sub1Go true rest
    else if isTerm c && headIsSpace rest then c :: (splitTok ++ sub1Go true rest)
    else c :: sub1Go false rest

/-- Alternatives of `(Dr|Mr|Mrs|Ms|Prof|et al|vs|Fig|fig|i\.e|e\.g)`, in regex
order (leftmost alternative wins at each position). -/
def abbrevAlts : List (List Char) :=
  [['D', 'r'], ['M', 'r'], ['M', 'r', 's'], ['M', 's'], ['P', 'r', 'o', 'f'],
   ['e', 't', ' ', 'a', 'l'], ['v', 's'], ['F', 'i', 'g'], ['f', 'i', 'g'],
   ['i', '.', 'e'], ['e', '.', 'g']]

/-- First alternative `a` with `a ++ "|SPLIT|"` a prefix of `l`; returns the
alternative and the remainder of `l` after the whole match. -/
def tryAlts : List (List Char) → List Char → Option (List Char × List Char)
  | [], _ => none
  | a :: as, l =>
    if List.isPrefixOf (a ++ splitTok) l then some (a, l.drop (a.length + splitTok.length))
    else tryAlts as l

/-- `re.sub(r'(Dr|…|e\.g)\|SPLIT\|', r'\1. ', t)` with a character budget
(`fuel ≥ l.length` always holds on the call path, so the 0 case is dead). -/
def sub2Go : Nat → List Char → List Char
  | 0, l => l
  | _ + 1, [] => []
  | fuel + 1, c :: rest =>
    match tryAlts abbrevAlts (c :: rest) with
    | some (a, rest') => (a ++ ['.', ' ']) ++ sub2Go fuel rest'
    | none => c :: sub2Go fuel rest

def sub2 (l : List Char) : List Char := sub2Go l.length l

/-- `t.split('|SPLIT|')`, again fuelled by the character count. -/
def splitGo : Nat → List Char → List Char → List (List Char)
  | 0, acc, l => [acc.reverse ++ l]
  | _ + 1, acc, [] => [acc.reverse]
  | fuel + 1, acc, c :: rest =>
    if List.isPrefixOf splitTok (c :: rest) then
      acc.reverse :: splitGo fuel [] ((c :: rest).drop splitTok.length)
    else splitGo fuel (c :: acc) rest

def splitOnTok (l : List Char) : List (List Char) := splitGo l.length [] l

/-- Python `str.strip()`. -/
def stripChars (l : List Char) : List Char :=
  ((l.dropWhile isPySpace).reverse.dropWhile isPySpace).reverse

def splitIntoSentences (text : List Char) : List (List Char) :=
  let t1 := sub1Go false text
  let t2 := sub2 t1
  ((splitOnTok t2).map stripChars).filter (fun s => 10 < s.length)

/-! ### `_get_overlap` and `chunk_text` -/

/-- The backward walk of `_get_overlap`: iterate the reversed sentence list,
prepending each sentence, stopping once the running total reaches `target`. -/
def getOverlapGo (target : Nat) : List (List Char) → Nat → List (List Char) → List (List Char)
  | [], _, acc => acc
  | c :: rest, total, acc =>
    if target ≤ total + c.length then c :: acc
    else getOverlapGo target rest (total + c.length) (c :: acc)

def getOverlap (chunks : List (List Char)) (target : Nat) : List Char :=
  List.intercalate [' '] (getOverlapGo target chunks.reverse 0 [])

structure Chunk where
  article_id : Int
  chunk_text : List Char
  chunk_index : Nat
deriving DecidableEq, Repr

/-- Loop state of `chunk_text`. -/
structure ChunkState where
  chunks : List Chunk
  current_chunk : List (List Char)
  current_length : Nat
  chunk_index : Nat
deriving DecidableEq, Repr

/-- One iteration of the `for sentence in sentences` loop. -/
def stepSentence (aid : Int) (st : ChunkState) (sentence : List Char) : ChunkState :=
  let sentence_length := sentence.length
  let st :=
    if TARGET_CHARS < st.current_length + sentence_length ∧ st.current_chunk ≠ [] then
      let overlap := getOverlap st.current_chunk OVERLAP_CHARS
      { chunks := st.chunks ++ [⟨aid, List.intercalate [' '] st.current_chunk, st.chunk_index⟩],
        current_chunk := if overlap ≠ [] then [overlap] else [],
        current_length := if overlap ≠ [] then overlap.length else 0,
        chunk_index := st.chunk_index + 1 }
    else st
  let s' := if MAX_CHUNK_CHARS < sentence_length then sentence.take MAX_CHUNK_CHARS else sentence
  { st with current_chunk := st.current_chunk ++ [s'],
            current_length := st.current_length + s'.length }

/-- The trailing `if current_chunk:` block of `chunk_text`. -/
def finishChunks (aid : Int) (st : ChunkState) : List Chunk :=
  if st.current_chunk ≠ [] then
    let ctext := List.intercalate [' '] st.current_chunk
    let ctext := if MAX_CHUNK_CHARS < ctext.length then ctext.take MAX_CHUNK_CHARS else ctext
    if 50 < (stripChars ctext).length then
      st.chunks ++ [⟨aid, ctext, st.chunk_index⟩]
    else st.chunks
  else st.chunks

def chunk_text (text : List Char) (article_id : Int) : List Chunk :=
  let sentences := splitIntoSentences text
  if sentences = [] then []
  else finishChunks article_id (sentences.foldl (stepSentence article_id) ⟨[], [], 0, 0⟩)

/-! ### `bm25.py`: tokenization -/

/-- `[a-z0-9]` after lowercasing. -/
def isTokChar (c : Char) : Bool :=
  ('a' ≤ c && c ≤ 'z') || ('0' ≤ c && c ≤ '9')

/-- Python regex `\w` restricted to the lowercased ASCII text: the run chars
plus underscore (an adjacent `_` defeats the `\b` anchors). -/
def isWordChar (c : Char) : Bool := isTokChar c || c == '_'

def headIsWord : List Char → Bool
  | [] => false
  | c :: _ => isWordChar c

/-- `re.findall(r'\b[a-z0-9]+\b', text)`: maximal alphanumeric runs whose
neighbours are not word characters.  `prevWord` records whether the character
just before the current position was a word character. -/
def findRuns : Nat → Bool → List Char → List (List Char)
  | 0, _, _ => []
  | _ + 1, _, [] => []
  | fuel + 1, prevWord, c :: rest =>
    if isTokChar c && !prevWord then
      if headIsWord (List.dropWhile isTokChar (c :: rest)) then
        findRuns fuel true rest
      else
        List.takeWhile isTokChar (c :: rest) ::
          findRuns fuel true (List.dropWhile isTokChar (c :: rest))
    else findRuns fuel (isWordChar c) rest

def stopwords : List (List Char) :=
  ["the".toList, "a".toList, "an".toList, "and".toList, "or".toList, "but".toList,
   "in".toList, "on".toList, "at".toList, "to".toList,
   "for".toList, "of".toList, "with".toList, "by".toList, "from".toList,
   "is".toList, "are".toList, "was".toList, "were".toList,
   "be".toList, "been".toList, "being".toList, "have".toList, "has".toList,
   "had".toList, "do".toList, "does".toList, "did".toList,
   "will".toList, "would".toList, "could".toList, "should".toList,
   "may".toList, "might".toList, "must".toList,
   "this".toList, "that".toList, "these".toList, "those".toList,
   "it".toList, "its".toList]

/-- `BM25Index._tokenize`. -/
def tokenize (text : List Char) : List (List Char) :=
  let lowered := text.map Char.toLower
  (findRuns lowered.length false lowered).filter
    (fun t => 2 < t.length && !(stopwords.contains t))

/-! ### Retrieval result records -/

/-- One result dictionary: its chunk identity, its text, all remaining
non-score fields collapsed into an opaque `payload`, and the score field the
record carries (`similarity` for vector results, `bm25_score` for lexical
ones; float scores are modelled as `ℚ`). -/
structure RDoc where
  chunk_id : Nat
  chunk_text : List Char
  payload : String
  score : ℚ
deriving DecidableEq, Repr

/-! ### `BM25Index` -/

/-- `index` holds the tokenized corpus the external `BM25Okapi` object was
constructed from (`None` before any build); the library's scoring function
itself is an external collaborator and is passed to `search` as an oracle. -/
structure BM25Index where
  index : Option (List (List (List Char)))
  chunks : List RDoc
deriving DecidableEq, Repr

def BM25Index.empty : BM25Index := ⟨none, []⟩

def BM25Index.build_index (_self : BM25Index) (chunks : List RDoc) : BM25Index :=
  ⟨some (chunks.map (fun c => tokenize c.chunk_text)), chunks⟩

def BM25Index.is_ready (self : BM25Index) : Bool :=
  self.index.isSome && decide (0 < self.chunks.length)

/-- Stable insertion into a descending-by-key list: the new element goes after
every element whose key is strictly larger and before equal-keyed ones (which
came later in the original list) — exactly where Python's stable
`sorted(..., reverse=True)` puts it, given that the sort below inserts
elements from last to first. -/
def insertDescBy {α : Type} (key : α → ℚ) (x : α) : List α → List α
  | [] => [x]
  | y :: ys => if key x < key y then y :: insertDescBy key x ys else x :: y :: ys

/-- Python's stable `sorted(..., key=key, reverse=True)`. -/
def sortDescBy {α : Type} (key : α → ℚ) : List α → List α
  | [] => []
  | x :: xs => insertDescBy key x (sortDescBy key xs)

/-- The body of `BM25Index.search` after `get_scores`: rank the score indices
descending, truncate to `top_k`, keep the positive ones and attach scores to
the corresponding chunk records.  (With the real library `scores` and
`chunks` always have equal length.) -/
def bm25Post (scores : List ℚ) (chunks : List RDoc) (top_k : Nat) : List RDoc :=
  let idxs := (sortDescBy (fun i => scores.getD i 0) (List.range scores.length)).take top_k
  idxs.filterMap (fun i =>
    if 0 < scores.getD i 0 then
      (chunks.get? i).map (fun d => { d with score := scores.getD i 0 })
    else none)

/-- `BM25Index.search`; `okapi` is the external `BM25Okapi.get_scores`
(corpus ↦ tokenized query ↦ score per document). -/
def BM25Index.search (self : BM25Index)
    (okapi : List (List (List Char)) → List (List Char) → List ℚ)
    (query : List Char) (top_k : Nat) : List RDoc :=
  match self.index with
  | none => []
  | some corpus => bm25Post (okapi corpus (tokenize query)) self.chunks top_k

/-! ### `hybrid_retriever.py` -/

def BM25_WEIGHT : ℚ := 3 / 10
def VECTOR_WEIGHT : ℚ := 7 / 10

/-- `_normalize_scores`. -/
def normalize_scores : List ℚ → List ℚ
  | [] => []
  | s :: rest =>
    let min_score := rest.foldl min s
    let max_score := rest.foldl max s
    if max_score = min_score then List.replicate (s :: rest).length 1
    else (s :: rest).map (fun x => (x - min_score) / (max_score - min_score))

/-- One `score_map` entry: the chunk identity key, the stored `data` record,
whether that record came from the vector list (so carries a `similarity`
field), and the two normalized scores. -/
structure MapEntry where
  chunk_id : Nat
  data : RDoc
  fromVec : Bool
  vector_score : ℚ
  bm25_score : ℚ
deriving DecidableEq, Repr

/-- Python `score_map[chunk_id] = {...}` in the vector loop: replace in place
when the key exists, else append. -/
def dictSetVec (m : List MapEntry) (r : RDoc) (vs : ℚ) : List MapEntry :=
  if m.any (fun x => x.chunk_id = r.chunk_id) then
    m.map (fun x => if x.chunk_id = r.chunk_id then ⟨r.chunk_id, r, true, vs, 0⟩ else x)
  else m ++ [⟨r.chunk_id, r, true, vs, 0⟩]

/-- The BM25 loop body: update `bm25_score` of an existing entry in place,
else append a fresh entry with vector score 0. -/
def dictSetBm (m : List MapEntry) (r : RDoc) (bs : ℚ) : List MapEntry :=
  if m.any (fun x => x.chunk_id = r.chunk_id) then
    m.map (fun x => if x.chunk_id = r.chunk_id then { x with bm25_score := bs } else x)
  else m ++ [⟨r.chunk_id, r, false, 0, bs⟩]

/-- `for i, result in enumerate(vector_results)`: the i-th record pairs with
`vector_scores[i] if i < len(vector_scores) else 0`, here by consuming the
score list in lockstep. -/
def buildMapVec : List RDoc → List ℚ → List MapEntry → List MapEntry
  | [], _, m => m
  | r :: rs, vs, m => buildMapVec rs vs.tail (dictSetVec m r (vs.headD 0))

def buildMapBm : List RDoc → List ℚ → List MapEntry → List MapEntry
  | [], _, m => m
  | r :: rs, bs, m => buildMapBm rs bs.tail (dictSetBm m r (bs.headD 0))

/-- The fully populated `score_map` of `_fuse_results` (insertion-ordered, as
a Python dict is). -/
def score_map (v b : List RDoc) : List MapEntry :=
  buildMapBm b (normalize_scores (b.map RDoc.score))
    (buildMapVec v (normalize_scores (v.map RDoc.score)) [])

/-- `fused_score = VECTOR_WEIGHT * vector_score + BM25_WEIGHT * bm25_score`. -/
def fusedOf (e : MapEntry) : ℚ :=
  VECTOR_WEIGHT * e.vector_score + BM25_WEIGHT * e.bm25_score

/-- A returned result dictionary: the copied `data` record's fields, its raw
`similarity` when the record came from vector search, and the three attached
scores (the raw `bm25_score` key of a lexical record is overwritten by the
normalized one, so only `fused/vector/bm25` score keys remain). -/
structure FusedResult where
  chunk_id : Nat
  chunk_text : List Char
  payload : String
  similarity : Option ℚ
  fused_score : ℚ
  vector_score : ℚ
  bm25_score : ℚ
deriving DecidableEq, Repr

def entryToResult (e : MapEntry) : FusedResult :=
  ⟨e.data.chunk_id, e.data.chunk_text, e.data.payload,
   if e.fromVec then some e.data.score else none,
   fusedOf e, e.vector_score, e.bm25_score⟩

/-- `_fuse_results`. -/
def fuse_results (v b : List RDoc) (top_k : Nat) : List FusedResult :=
  ((sortDescBy fusedOf (score_map v b)).take top_k).map entryToResult

/-- `vector_store.similarity_search`: the store rows ordered by embedding
distance (the SQL `ORDER BY c.embedding <=> q LIMIT top_k`), each carrying
`similarity = 1 - distance`; the distance oracle stands for pgvector. -/
def similarity_search (store : List RDoc) (dist : RDoc → ℚ) (top_k : Nat) : List RDoc :=
  ((sortDescBy (fun d => -(dist d)) store).take top_k).map
    (fun d => { d with score := 1 - dist d })

structure HybridRetriever where
  bm25_index : BM25Index
  initialized : Bool
deriving DecidableEq, Repr

/-- `HybridRetriever.__init__`. -/
def HybridRetriever.new : HybridRetriever := ⟨BM25Index.empty, false⟩

/-- `HybridRetriever.initialize`, with the document store's
`get_all_chunks()` passed in as `store`: on an empty store it logs a warning
and returns with the state unchanged. -/
def HybridRetriever.initStore (self : HybridRetriever) (store : List RDoc) : HybridRetriever :=
  if store.isEmpty then self
  else ⟨self.bm25_index.build_index store, true⟩

def HybridRetriever.is_ready (self : HybridRetriever) : Bool :=
  self.initialized && self.bm25_index.is_ready

/-- `HybridRetriever.search` (the returned elapsed time is dropped;
`dist`/`okapi` stand for the embedding-distance and BM25 scoring oracles). -/
def HybridRetriever.search (self : HybridRetriever) (store : List RDoc) (dist : RDoc → ℚ)
    (okapi : List (List (List Char)) → List (List Char) → List ℚ)
    (query : List Char) (top_k : Nat) : List FusedResult :=
  let st := if !self.initialized then self.initStore store else self
  let vector_results := similarity_search store dist (top_k * 2)
  let bm25_results := st.bm25_index.search okapi query (top_k * 2)
  fuse_results vector_results bm25_results top_k

/-! ### Statement-side definitions (the spec's words, for comparison)

These are not part of the embedding: they spell out the specification's
"the chunk's normalized semantic/lexical score" (0 when the chunk identity is
absent from a list) so the fusion theorems can compare the code against it. -/

/-- The normalized score the spec assigns to chunk identity `cid` in a
candidate list: the score paired (positionally) with the first record whose
`chunk_id` is `cid`. -/
def lookupNormOpt : List RDoc → List ℚ → Nat → Option ℚ
  | [], _, _ => none
  | r :: rs, ns, cid =>
    if r.chunk_id = cid then some (ns.headD 0) else lookupNormOpt rs ns.tail cid

/-- Spec's normalized score contribution: 0 for an absent chunk identity. -/
def lookupNorm (l : List RDoc) (ns : List ℚ) (cid : Nat) : ℚ :=
  (lookupNormOpt l ns cid).getD 0

/-- Normalized semantic score the spec assigns to `cid`. -/
def vecNorm (v : List RDoc) (cid : Nat) : ℚ :=
  lookupNorm v (normalize_scores (v.map RDoc.score)) cid

/-- Normalized lexical score the spec assigns to `cid`. -/
def bmNorm (b : List RDoc) (cid : Nat) : ℚ :=
  lookupNorm b (normalize_scores (b.map RDoc.score)) cid

/-- First record of a candidate list with the given chunk identity. -/
def lookupDoc : List RDoc → Nat → Option RDoc
  | [], _ => none
  | r :: rs, cid => if r.chunk_id = cid then some r else lookupDoc rs cid

/-! ### Proof-side normal forms for the score map -/

/-- What the vector loop builds from an identity-distinct list: one entry per
record, in order. -/
def zipVec : List RDoc → List ℚ → List MapEntry
  | [], _ => []
  | r :: rs, vs => ⟨r.chunk_id, r, true, vs.headD 0, 0⟩ :: zipVec rs vs.tail

/-- The in-place effect of the whole BM25 loop on one pre-existing entry. -/
def applyBm (b : List RDoc) (bs : List ℚ) (e : MapEntry) : MapEntry :=
  match lookupNormOpt b bs e.chunk_id with
  | some s => { e with bm25_score := s }
  | none => e

/-- The entries the BM25 loop appends: one per record whose identity is not
among `seen`. -/
def newBm (seen : List Nat) : List RDoc → List ℚ → List MapEntry
  | [], _ => []
  | r :: rs, bs =>
    if r.chunk_id ∈ seen then newBm seen rs bs.tail
    else ⟨r.chunk_id, r, false, 0, bs.headD 0⟩ :: newBm seen rs bs.tail

/-! ### Concrete inputs used by counterexamples and witnesses -/

/-- Three sentences of 3001, 3500 and 12 characters: the second emitted chunk
is the 3001-character overlap plus the 3500-character sentence. -/
def ex3Text : List Char :=
  List.replicate 3000 'a' ++
    '.' :: ' ' :: (List.replicate 3499 'b' ++ '.' :: ' ' :: List.replicate 12 'c')

/-- Three sentences of 122, 1079 and 12 characters: the 122-character first
sentence is carried over whole as overlap, exceeding the 120-character
budget. -/
def ex4Text : List Char :=
  List.replicate 121 'a' ++
    '.' :: ' ' :: (List.replicate 1078 'b' ++ '.' :: ' ' :: List.replicate 12 'c')

def docA : RDoc := ⟨1, "alpha text one".toList, "A", 9/10⟩
def docB : RDoc := ⟨2, "beta text two".toList, "B", 1/2⟩
def docC : RDoc := ⟨3, "gamma text three".toList, "C", 10⟩

/-! ## Lemmas about the stable descending sort -/

theorem mem_insertDescBy {α : Type} (key : α → ℚ) (x : α) (l : List α) (z : α) :
    z ∈ insertDescBy key x l ↔ z = x ∨ z ∈ l := by
  induction l with
  | nil => simp [insertDescBy]
  | cons y ys ih =>
    by_cases h : key x < key y
    · simp only [insertDescBy, if_pos h, List.mem_cons, ih]
      tauto
    · simp only [insertDescBy, if_neg h, List.mem_cons]

theorem perm_insertDescBy {α : Type} (key : α → ℚ) (x : α) (l : List α) :
    List.Perm (insertDescBy key x l) (x :: l) := by
  induction l with
  | nil => exact List.Perm.refl _
  | cons y ys ih =>
    by_cases h : key x < key y
    · simp only [insertDescBy, if_pos h]
      exact (ih.cons y).trans (List.Perm.swap x y ys)
    · simp [insertDescBy, h]

theorem perm_sortDescBy {α : Type} (key : α → ℚ) (l : List α) :
    List.Perm (sortDescBy key l) l := by
  induction l with
  | nil => exact List.Perm.refl _
  | cons x xs ih => exact (perm_insertDescBy key x (sortDescBy key xs)).trans (ih.cons x)

theorem pairwise_insertDescBy {α : Type} (key : α → ℚ) (x : α) (l : List α)
    (h : l.Pairwise (fun a b => key b ≤ key a)) :
    (insertDescBy key x l).Pairwise (fun a b => key b ≤ key a) := by
  induction l with
  | nil => simp [insertDescBy]
  | cons y ys ih =>
    rcases List.pairwise_cons.1 h with ⟨hy, hys⟩
    by_cases hk : key x < key y
    · simp only [insertDescBy, if_pos hk]
      refine List.pairwise_cons.2 ⟨?_, ih hys⟩
      intro z hz
      rcases (mem_insertDescBy key x ys z).1 hz with rfl | hz'
      · exact le_of_lt hk
      · exact hy z hz'
    · simp only [insertDescBy, if_neg hk]
      refine List.pairwise_cons.2 ⟨?_, h⟩
      intro z hz
      rcases List.mem_cons.1 hz with rfl | hz'
      · exact le_of_not_lt hk
      · exact le_trans (hy z hz') (le_of_not_lt hk)

theorem pairwise_sortDescBy {α : Type} (key : α → ℚ) (l : List α) :
    (sortDescBy key l).Pairwise (fun a b => key b ≤ key a) := by
  induction l with
  | nil => simp [sortDescBy]
  | cons x xs ih => exact pairwise_insertDescBy key x _ ih

/-! ## C7: lexical search before any build -/

/-- C7: on a freshly constructed lexical index (no `build_index` yet, so
`index is None`), `search` returns the empty list for every scoring oracle,
query and `top_k`, rather than raising. -/
theorem bm25_search_unbuilt_empty :
    ∀ (okapi : List (List (List Char)) → List (List Char) → List ℚ)
      (query : List Char) (top_k : Nat),
      BM25Index.empty.search okapi query top_k = [] :=
  fun _ _ _ => rfl

/-! ## C5: positivity, order and size of lexical search results -/

theorem bm25Post_pos (scores : List ℚ) (chunks : List RDoc) (top_k : Nat) :
    ∀ d ∈ bm25Post scores chunks top_k, 0 < d.score := by
  intro d hd
  simp only [bm25Post, List.mem_filterMap] at hd
  obtain ⟨i, -, hfi⟩ := hd
  simp only [Option.ite_none_right_eq_some, Option.map_eq_some'] at hfi
  obtain ⟨hpos, c, -, rfl⟩ := hfi
  exact hpos

theorem bm25Post_desc (scores : List ℚ) (chunks : List RDoc) (top_k : Nat) :
    ((bm25Post scores chunks top_k).map RDoc.score).Pairwise (fun a b => b ≤ a) := by
  rw [List.pairwise_map]
  apply List.pairwise_filterMap.2
  have hsorted :
      ((sortDescBy (fun i => scores.getD i 0) (List.range scores.length)).take top_k).Pairwise
        (fun i j => scores.getD j 0 ≤ scores.getD i 0) :=
    (pairwise_sortDescBy (fun i => scores.getD i 0) (List.range scores.length)).sublist
      (List.take_sublist top_k _)
  refine hsorted.imp_of_mem ?_
  intro i j _ _ hle d hd e he
  simp only [Option.mem_def, Option.ite_none_right_eq_some, Option.map_eq_some'] at hd he
  obtain ⟨-, c, -, rfl⟩ := hd
  obtain ⟨-, c', -, rfl⟩ := he
  exact hle

theorem bm25Post_length_le (scores : List ℚ) (chunks : List RDoc) (top_k : Nat) :
    (bm25Post scores chunks top_k).length ≤ top_k := by
  calc (bm25Post scores chunks top_k).length
      ≤ ((sortDescBy (fun i => scores.getD i 0) (List.range scores.length)).take top_k).length :=
        List.length_filterMap_le _ _
    _ ≤ top_k := List.length_take_le _ _

/-- C5 amended: for every lexical index state, scoring oracle, query and
`top_k`, every returned chunk has strictly positive score, the returned
scores are in non-increasing (descending, possibly tied) order — not
strictly descending, since equal scores are both kept — and at most `top_k`
chunks are returned. -/
theorem bm25_search_pos_desc_bounded :
    ∀ (st : BM25Index)
      (okapi : List (List (List Char)) → List (List Char) → List ℚ)
      (query : List Char) (top_k : Nat),
      (∀ d ∈ st.search okapi query top_k, 0 < d.score) ∧
      ((st.search okapi query top_k).map RDoc.score).Pairwise (fun a b => b ≤ a) ∧
      (st.search okapi query top_k).length ≤ top_k := by
  intro st okapi query top_k
  obtain ⟨idx, chunks⟩ := st
  cases idx with
  | none => simp [BM25Index.search]
  | some corpus =>
    simp only [BM25Index.search]
    exact ⟨bm25Post_pos _ _ _, bm25Post_desc _ _ _, bm25Post_length_le _ _ _⟩

/-- C5 counterexample: two identically scored documents (as produced by BM25
on two identical chunk texts) are both returned with equal scores, so the
result is not in strictly descending score order. -/
theorem bm25_tie_not_strict_cex :
    (((BM25Index.empty.build_index [docA, docB]).search
        (fun _ _ => [1, 1]) ['q'] 5).map RDoc.score = [1, 1]) ∧
    ¬ ((((BM25Index.empty.build_index [docA, docB]).search
        (fun _ _ => [1, 1]) ['q'] 5).map RDoc.score).Pairwise (fun a b => b < a)) := by
  decide

/-! ## C2: empty corpus behaviour of the hybrid retriever -/

/-- C2 counterexample: with a document store holding zero chunks,
`initialize` returns normally but leaves the retriever in its initial state,
and `is_ready()` is `false` afterwards — not `true` as claimed. -/
theorem empty_corpus_not_ready_cex :
    HybridRetriever.new.initStore [] = HybridRetriever.new ∧
    (HybridRetriever.new.initStore []).is_ready = false := by
  exact ⟨rfl, rfl⟩

/-- C2 amended: on an empty document store, `initialize` succeeds (returns
normally, leaving the state unchanged), `is_ready()` returns `false` — the
retriever does NOT transition to ready — and `search` still returns an empty
result list without error. -/
theorem empty_corpus_graceful :
    ∀ (dist : RDoc → ℚ)
      (okapi : List (List (List Char)) → List (List Char) → List ℚ)
      (query : List Char) (top_k : Nat),
      HybridRetriever.new.initStore [] = HybridRetriever.new ∧
      (HybridRetriever.new.initStore []).is_ready = false ∧
      HybridRetriever.new.search [] dist okapi query top_k = [] := by
  intro dist okapi query top_k
  refine ⟨rfl, rfl, ?_⟩
  simp [HybridRetriever.search, HybridRetriever.new, HybridRetriever.initStore,
    BM25Index.empty, BM25Index.search, similarity_search, sortDescBy,
    fuse_results, score_map, buildMapVec, buildMapBm, normalize_scores]

/-! ## C6 / C8: min-max normalization -/

theorem foldl_min_le_init (l : List ℚ) (a : ℚ) : l.foldl min a ≤ a := by
  induction l generalizing a with
  | nil => exact le_refl a
  | cons b l ih => exact le_trans (ih (min a b)) (min_le_left a b)

theorem foldl_min_le_mem (l : List ℚ) (a x : ℚ) (hx : x ∈ l) : l.foldl min a ≤ x := by
  induction l generalizing a with
  | nil => cases hx
  | cons b l ih =>
    rcases List.mem_cons.1 hx with rfl | hx'
    · exact le_trans (foldl_min_le_init l (min a x)) (min_le_right a x)
    · exact ih (min a b) hx'

theorem le_foldl_max_init (l : List ℚ) (a : ℚ) : a ≤ l.foldl max a := by
  induction l generalizing a with
  | nil => exact le_refl a
  | cons b l ih => exact le_trans (le_max_left a b) (ih (max a b))

theorem le_foldl_max_mem (l : List ℚ) (a x : ℚ) (hx : x ∈ l) : x ≤ l.foldl max a := by
  induction l generalizing a with
  | nil => cases hx
  | cons b l ih =>
    rcases List.mem_cons.1 hx with rfl | hx'
    · exact le_trans (le_max_right a x) (le_foldl_max_init l (max a x))
    · exact ih (max a b) hx'

theorem foldl_min_map (f : ℚ → ℚ) (hf : ∀ a b, f (min a b) = min (f a) (f b)) :
    ∀ (l : List ℚ) (a : ℚ), (l.map f).foldl min (f a) = f (l.foldl min a) := by
  intro l
  induction l with
  | nil => intro a; rfl
  | cons b l ih => intro a; simpa [← hf a b] using ih (min a b)

theorem foldl_max_map (f : ℚ → ℚ) (hf : ∀ a b, f (max a b) = max (f a) (f b)) :
    ∀ (l : List ℚ) (a : ℚ), (l.map f).foldl max (f a) = f (l.foldl max a) := by
  intro l
  induction l with
  | nil => intro a; rfl
  | cons b l ih => intro a; simpa [← hf a b] using ih (max a b)

theorem foldl_min_replicate (n : Nat) (a : ℚ) : (List.replicate n a).foldl min a = a := by
  induction n with
  | zero => rfl
  | succ n ih => simpa [List.replicate_succ] using ih

theorem foldl_max_replicate (n : Nat) (a : ℚ) : (List.replicate n a).foldl max a = a := by
  induction n with
  | zero => rfl
  | succ n ih => simpa [List.replicate_succ] using ih

theorem normalize_scores_cons_eq (s : ℚ) (rest : List ℚ)
    (h : rest.foldl max s = rest.foldl min s) :
    normalize_scores (s :: rest) = List.replicate (s :: rest).length 1 := by
  simp only [normalize_scores]
  rw [if_pos h]

theorem normalize_scores_cons_ne (s : ℚ) (rest : List ℚ)
    (h : rest.foldl max s ≠ rest.foldl min s) :
    normalize_scores (s :: rest) =
      (s :: rest).map (fun x =>
        (x - rest.foldl min s) / (rest.foldl max s - rest.foldl min s)) := by
  simp only [normalize_scores]
  rw [if_neg h]

/-- C6: the empty score list normalizes to the empty list; every normalized
score lies in `[0, 1]`; a list whose max equals its min (a single distinct
value) normalizes to all-ones; otherwise each score `x` maps to
`(x - min) / (max - min)`. -/
theorem normalize_scores_spec :
    normalize_scores [] = ([] : List ℚ) ∧
    ∀ (s : ℚ) (rest : List ℚ),
      (∀ x ∈ normalize_scores (s :: rest), 0 ≤ x ∧ x ≤ 1) ∧
      (rest.foldl max s = rest.foldl min s →
        normalize_scores (s :: rest) = List.replicate (s :: rest).length 1) ∧
      (rest.foldl max s ≠ rest.foldl min s →
        normalize_scores (s :: rest) =
          (s :: rest).map (fun x =>
            (x - rest.foldl min s) / (rest.foldl max s - rest.foldl min s))) := by
  refine ⟨rfl, ?_⟩
  intro s rest
  refine ⟨?_, normalize_scores_cons_eq s rest, normalize_scores_cons_ne s rest⟩
  intro x hx
  by_cases h : rest.foldl max s = rest.foldl min s
  · rw [normalize_scores_cons_eq s rest h] at hx
    rcases List.eq_of_mem_replicate hx with rfl
    exact ⟨zero_le_one, le_refl 1⟩
  · rw [normalize_scores_cons_ne s rest h] at hx
    rcases List.mem_map.1 hx with ⟨y, hy, rfl⟩
    have hmin : rest.foldl min s ≤ y := by
      rcases List.mem_cons.1 hy with rfl | hy'
      · exact foldl_min_le_init rest y
      · exact foldl_min_le_mem rest s y hy'
    have hmax : y ≤ rest.foldl max s := by
      rcases List.mem_cons.1 hy with rfl | hy'
      · exact le_foldl_max_init rest y
      · exact le_foldl_max_mem rest s y hy'
    have hlt : rest.foldl min s < rest.foldl max s :=
      lt_of_le_of_ne (le_trans (foldl_min_le_init rest s) (le_foldl_max_init rest s))
        (Ne.symm h)
    constructor
    · exact div_nonneg (sub_nonneg.2 hmin) (le_of_lt (sub_pos.2 hlt))
    · rw [div_le_one (sub_pos.2 hlt)]
      exact sub_le_sub_right hmax _

/-- C8: min-max normalization is idempotent (exactly, over exact rational
arithmetic): renormalizing a normalized list returns it unchanged. -/
theorem normalize_scores_idempotent :
    ∀ (scores : List ℚ), normalize_scores (normalize_scores scores) = normalize_scores scores := by
  intro scores
  cases scores with
  | nil => rfl
  | cons s rest =>
    by_cases h : rest.foldl max s = rest.foldl min s
    · rw [normalize_scores_cons_eq s rest h]
      have hlen : (s :: rest).length = rest.length + 1 := rfl
      rw [hlen, List.replicate_succ]
      rw [normalize_scores_cons_eq 1 (List.replicate rest.length 1)
        (by rw [foldl_min_replicate, foldl_max_replicate])]
      simp [List.replicate_succ]
    · have hlt : rest.foldl min s < rest.foldl max s :=
        lt_of_le_of_ne (le_trans (foldl_min_le_init rest s) (le_foldl_max_init rest s))
          (Ne.symm h)
      have hposinv : (0 : ℚ) ≤ (rest.foldl max s - rest.foldl min s)⁻¹ :=
        inv_nonneg.2 (le_of_lt (sub_pos.2 hlt))
      set f : ℚ → ℚ :=
        fun x => (x - rest.foldl min s) / (rest.foldl max s - rest.foldl min s) with hf
      have hmono : Monotone f := by
        intro a b hab
        simp only [hf, div_eq_mul_inv]
        exact mul_le_mul_of_nonneg_right (sub_le_sub_right hab _) hposinv
      have hfmin : ∀ a b, f (min a b) = min (f a) (f b) := fun a b => hmono.map_min
      have hfmax : ∀ a b, f (max a b) = max (f a) (f b) := fun a b => hmono.map_max
      rw [normalize_scores_cons_ne s rest h]
      have hcons : (s :: rest).map f = f s :: rest.map f := rfl
      rw [hcons]
      have hminf : (rest.map f).foldl min (f s) = f (rest.foldl min s) :=
        foldl_min_map f hfmin rest s
      have hmaxf : (rest.map f).foldl max (f s) = f (rest.foldl max s) :=
        foldl_max_map f hfmax rest s
      have hfm : f (rest.foldl min s) = 0 := by simp [hf]
      have hfM : f (rest.foldl max s) = 1 :=
        div_self (ne_of_gt (sub_pos.2 hlt))
      rw [normalize_scores_cons_ne (f s) (rest.map f)
        (by rw [hminf, hmaxf, hfm, hfM]; exact one_ne_zero)]
      rw [hminf, hmaxf, hfm, hfM]
      simp

theorem normalize_scores_spec_witness :
    (∀ x ∈ normalize_scores ((0 : ℚ) :: [2]), 0 ≤ x ∧ x ≤ 1) ∧
    normalize_scores ((2 : ℚ) :: [2]) = List.replicate 2 1 ∧
    normalize_scores ((0 : ℚ) :: [4]) = [0, 1] := by
  refine ⟨(normalize_scores_spec.2 0 [2]).1, ?_, ?_⟩
  · have h := (normalize_scores_spec.2 2 [2]).2.1 (by decide)
    simpa using h
  · have h := (normalize_scores_spec.2 0 [4]).2.2 (by decide)
    rw [h]
    norm_num

/-! ## Whitespace-only input runs through the splitter unchanged -/

theorem isPySpace_cases (c : Char) (h : isPySpace c = true) :
    c = ' ' ∨ c = '\t' ∨ c = '\n' ∨ c = '\r' ∨ c = '\x0b' ∨ c = '\x0c' := by
  simp only [isPySpace, Bool.or_eq_true, beq_iff_eq] at h
  tauto

theorem isTerm_eq_false_of_space (c : Char) (h : isPySpace c = true) : isTerm c = false := by
  rcases isPySpace_cases c h with rfl | rfl | rfl | rfl | rfl | rfl <;> rfl

theorem bar_beq_eq_false_of_space (c : Char) (h : isPySpace c = true) : ('|' == c) = false := by
  rcases isPySpace_cases c h with rfl | rfl | rfl | rfl | rfl | rfl <;> rfl

theorem sub1Go_all_space (l : List Char) (h : ∀ c ∈ l, isPySpace c = true) :
    sub1Go false l = l := by
  induction l with
  | nil => rfl
  | cons c rest ih =>
    have hc := isTerm_eq_false_of_space c (h c (List.mem_cons_self c rest))
    simp only [sub1Go, Bool.false_and, Bool.false_eq_true, if_false, hc, Bool.and_eq_true,
      Bool.false_eq_true, false_and, if_false]
    exact congrArg (c :: ·) (ih (fun d hd => h d (List.mem_cons_of_mem c hd)))

theorem tryAlts_eq_none (alts : List (List Char)) (l : List Char)
    (h : ∀ a ∈ alts, (a ++ splitTok).isPrefixOf l = false) :
    tryAlts alts l = none := by
  induction alts with
  | nil => rfl
  | cons a as ih =>
    simp only [tryAlts, h a (List.mem_cons_self a as), Bool.false_eq_true, if_false]
    exact ih (fun a' ha' => h a' (List.mem_cons_of_mem a ha'))

theorem tryAlts_none_of_charset (l allowed : List Char)
    (hl : ∀ c ∈ l, c ∈ allowed)
    (ha : ∀ a ∈ abbrevAlts, ∃ x ∈ a, x ∉ allowed) :
    tryAlts abbrevAlts l = none := by
  apply tryAlts_eq_none
  intro a hmem
  obtain ⟨x, hxa, hxn⟩ := ha a hmem
  by_contra hne
  have hpref : (a ++ splitTok) <+: l :=
    List.isPrefixOf_iff_prefix.1 (by revert hne; cases (a ++ splitTok).isPrefixOf l <;> simp)
  exact hxn (hl x (hpref.subset (List.mem_append_left _ hxa)))

theorem sub2Go_id_of_charset (allowed : List Char)
    (ha : ∀ a ∈ abbrevAlts, ∃ x ∈ a, x ∉ allowed) :
    ∀ (fuel : Nat) (l : List Char), (∀ c ∈ l, c ∈ allowed) → sub2Go fuel l = l := by
  intro fuel
  induction fuel with
  | zero => intro l _; rfl
  | succ n ih =>
    intro l hl
    cases l with
    | nil => rfl
    | cons c rest =>
      rw [sub2Go, tryAlts_none_of_charset (c :: rest) allowed hl ha]
      exact congrArg (c :: ·) (ih rest (fun d hd => hl d (List.mem_cons_of_mem c hd)))

theorem splitGo_all_space :
    ∀ (l : List Char) (fuel : Nat) (acc : List Char), l.length ≤ fuel →
      (∀ c ∈ l, isPySpace c = true) → splitGo fuel acc l = [acc.reverse ++ l] := by
  intro l
  induction l with
  | nil =>
    intro fuel acc _ _
    cases fuel with
    | zero => rfl
    | succ n => simp [splitGo]
  | cons c rest ih =>
    intro fuel acc hfuel hsp
    cases fuel with
    | zero => exact absurd hfuel (by simp)
    | succ n =>
      have hbar := bar_beq_eq_false_of_space c (hsp c (List.mem_cons_self c rest))
      have hpref : splitTok.isPrefixOf (c :: rest) = false := by
        simp [splitTok, List.isPrefixOf, hbar]
      rw [splitGo, if_neg (by simp [hpref])]
      rw [ih n (c :: acc) (by simpa using hfuel)
        (fun d hd => hsp d (List.mem_cons_of_mem c hd))]
      simp

theorem stripChars_all_space (l : List Char) (h : ∀ c ∈ l, isPySpace c = true) :
    stripChars l = [] := by
  have hdrop : l.dropWhile isPySpace = [] := by
    rw [List.dropWhile_eq_nil_iff]
    intro c hc
    exact (h c hc)
  simp [stripChars, hdrop]

/-- The allowed alphabet for whitespace-only text, with a non-whitespace
witness character in every abbreviation alternative. -/
theorem abbrevAlts_not_space :
    ∀ a ∈ abbrevAlts, ∃ x ∈ a, x ∉ [' ', '\t', '\n', '\r', '\x0b', '\x0c'] := by
  decide

theorem splitIntoSentences_all_space (text : List Char)
    (h : ∀ c ∈ text, isPySpace c = true) : splitIntoSentences text = [] := by
  have h1 : sub1Go false text = text := sub1Go_all_space text h
  have h2 : sub2 text = text :=
    sub2Go_id_of_charset [' ', '\t', '\n', '\r', '\x0b', '\x0c'] abbrevAlts_not_space
      text.length text
      (fun c hc => by
        rcases isPySpace_cases c (h c hc) with rfl | rfl | rfl | rfl | rfl | rfl <;> simp)
  have h3 : splitOnTok text = [text] :=
    splitGo_all_space text text.length [] (le_refl _) h
  simp only [splitIntoSentences, h1, h2, h3, List.map_cons, List.map_nil,
    stripChars_all_space text h]
  simp

/-! ## C9: chunk indices are contiguous from 0; blank input yields nothing -/

/-- Loop invariant of `chunk_text`: the next index equals the number of
chunks emitted so far, and chunk `i` carries index `i`. -/
def chunkInv (st : ChunkState) : Prop :=
  st.chunk_index = st.chunks.length ∧
  ∀ (i : Nat) (c : Chunk), st.chunks[i]? = some c → c.chunk_index = i

theorem concat_index_inv (l : List Chunk) (c : Chunk)
    (hl : ∀ (i : Nat) (d : Chunk), l[i]? = some d → d.chunk_index = i)
    (hc : c.chunk_index = l.length) :
    ∀ (i : Nat) (d : Chunk), (l ++ [c])[i]? = some d → d.chunk_index = i := by
  intro i d hd
  rcases lt_or_ge i l.length with hi | hi
  · rw [List.getElem?_append_left hi] at hd
    exact hl i d hd
  · rw [List.getElem?_append_right hi] at hd
    have hlt : i - l.length < 1 := by
      simpa using (List.getElem?_eq_some_iff.1 hd).1
    have hz : i - l.length = 0 := by omega
    rw [hz] at hd
    simp only [List.getElem?_cons_zero, Option.some_inj] at hd
    subst hd
    omega

theorem stepSentence_inv (aid : Int) (s : List Char) (st : ChunkState)
    (h : chunkInv st) : chunkInv (stepSentence aid st s) := by
  obtain ⟨cs, cc, cl, ci⟩ := st
  obtain ⟨h1, h2⟩ := h
  simp only [chunkInv] at h1 h2 ⊢
  simp only [stepSentence]
  split_ifs with hc <;>
    first
      | exact ⟨h1, h2⟩
      | exact ⟨by simp [h1], concat_index_inv cs _ h2 (by simpa using h1)⟩

theorem foldl_step_inv (aid : Int) :
    ∀ (l : List (List Char)) (st : ChunkState),
      chunkInv st → chunkInv (l.foldl (stepSentence aid) st) := by
  intro l
  induction l with
  | nil => intro st h; exact h
  | cons s rest ih => intro st h; exact ih _ (stepSentence_inv aid s st h)

theorem finishChunks_index (aid : Int) (st : ChunkState) (h : chunkInv st) :
    ∀ (i : Nat) (c : Chunk), (finishChunks aid st)[i]? = some c → c.chunk_index = i := by
  obtain ⟨cs, cc, cl, ci⟩ := st
  obtain ⟨h1, h2⟩ := h
  simp only [chunkInv] at h1 h2
  simp only [finishChunks]
  split_ifs <;>
    first
      | exact h2
      | exact concat_index_inv cs _ h2 (by simpa using h1)

/-- C9: the emitted chunks carry contiguous indices `0, 1, 2, …` (the `i`-th
chunk of an article has `chunk_index = i`), and an empty or whitespace-only
input yields no chunks at all. -/
theorem chunk_index_contiguous_and_empty :
    (∀ (text : List Char) (aid : Int) (i : Nat) (c : Chunk),
      (chunk_text text aid)[i]? = some c → c.chunk_index = i) ∧
    (∀ (text : List Char) (aid : Int),
      (∀ c ∈ text, isPySpace c = true) → chunk_text text aid = []) := by
  constructor
  · intro text aid i c hc
    unfold chunk_text at hc
    by_cases hs : splitIntoSentences text = []
    · rw [if_pos hs] at hc
      simp at hc
    · rw [if_neg hs] at hc
      exact finishChunks_index aid _
        (foldl_step_inv aid (splitIntoSentences text) ⟨[], [], 0, 0⟩ ⟨rfl, by simp⟩) i c hc
  · intro text aid hspace
    have hsent : splitIntoSentences text = [] := splitIntoSentences_all_space text hspace
    unfold chunk_text
    rw [if_pos hsent]

theorem chunk_index_contiguous_and_empty_witness :
    chunk_text [' ', '\t'] 0 = [] ∧
    (⟨1, List.replicate 60 'a', 0⟩ : Chunk).chunk_index = 0 :=
  ⟨chunk_index_contiguous_and_empty.2 [' ', '\t'] 0 (by decide),
    chunk_index_contiguous_and_empty.1 (List.replicate 60 'a') 1 0 _ (by decide)⟩

/-! ## Symbolic evaluation of the chunker on three-sentence inputs

The two counterexample inputs (`ex3Text`, `ex4Text`) are too long for kernel
evaluation, so the pipeline is evaluated symbolically: `n_A` repetitions of
`'a'` ending in a period, then `n_B` of `'b'`, then `n_C` of `'c'`. -/

theorem sub1Go_cons_plain (c : Char) (h1 : isPySpace c = false) (h2 : isTerm c = false)
    (sk : Bool) (l : List Char) : sub1Go sk (c :: l) = c :: sub1Go false l := by
  simp [sub1Go, h1, h2]

theorem sub1Go_replicate_succ (c : Char) (h1 : isPySpace c = false) (h2 : isTerm c = false) :
    ∀ (n : Nat) (sk : Bool) (l : List Char),
      sub1Go sk (List.replicate (n + 1) c ++ l) = List.replicate (n + 1) c ++ sub1Go false l := by
  intro n
  induction n with
  | zero => intro sk l; simpa using sub1Go_cons_plain c h1 h2 sk l
  | succ m ih =>
    intro sk l
    rw [List.replicate_succ, List.cons_append, sub1Go_cons_plain c h1 h2 sk _, ih false l]
    simp [List.replicate_succ]

theorem sub1Go_dot_space (sk : Bool) (d : Char) (hd : isPySpace d = true) (l : List Char) :
    sub1Go sk ('.' :: d :: l) = '.' :: (splitTok ++ sub1Go true (d :: l)) := by
  have h1 : isPySpace '.' = false := rfl
  have h2 : isTerm '.' = true := rfl
  simp [sub1Go, headIsSpace, hd, h1, h2]

theorem sub1Go_skip (d : Char) (hd : isPySpace d = true) (l : List Char) :
    sub1Go true (d :: l) = sub1Go true l := by
  simp [sub1Go, hd]

/-- The first regex substitution on the three-sentence text. -/
theorem sub1_three (nA nB nC : Nat) (hA : 0 < nA) (hB : 0 < nB) (hC : 0 < nC) :
    sub1Go false (List.replicate nA 'a' ++ '.' :: ' ' ::
        (List.replicate nB 'b' ++ '.' :: ' ' :: List.replicate nC 'c')) =
      List.replicate nA 'a' ++ '.' :: (splitTok ++
        (List.replicate nB 'b' ++ '.' :: (splitTok ++ List.replicate nC 'c'))) := by
  obtain ⟨a, rfl⟩ : ∃ a, nA = a + 1 := ⟨nA - 1, by omega⟩
  obtain ⟨b, rfl⟩ : ∃ b, nB = b + 1 := ⟨nB - 1, by omega⟩
  obtain ⟨c, rfl⟩ : ∃ c, nC = c + 1 := ⟨nC - 1, by omega⟩
  rw [sub1Go_replicate_succ 'a' rfl rfl a false _]
  rw [sub1Go_dot_space false ' ' rfl _]
  rw [sub1Go_skip ' ' rfl _]
  rw [sub1Go_replicate_succ 'b' rfl rfl b true _]
  rw [sub1Go_dot_space false ' ' rfl _]
  rw [sub1Go_skip ' ' rfl _]
  rw [show sub1Go true (List.replicate (c + 1) 'c') = List.replicate (c + 1) 'c' from by
    simpa [sub1Go] using sub1Go_replicate_succ 'c' rfl rfl c true []]

/-- Character inventory of the substituted text. -/
theorem mem_three_allowed (nA nB nC : Nat) (x : Char)
    (hx : x ∈ List.replicate nA 'a' ++ '.' :: (splitTok ++
        (List.replicate nB 'b' ++ '.' :: (splitTok ++ List.replicate nC 'c')))) :
    x ∈ ['a', 'b', 'c', '.', '|', 'S', 'P', 'L', 'I', 'T'] := by
  simp only [List.mem_append, List.mem_cons, List.mem_replicate, splitTok,
    List.not_mem_nil, or_false] at hx ⊢
  tauto

theorem abbrevAlts_not_main :
    ∀ a ∈ abbrevAlts, ∃ x ∈ a, x ∉ ['a', 'b', 'c', '.', '|', 'S', 'P', 'L', 'I', 'T'] := by
  decide

theorem splitGo_char_sub (c : Char) (hbar : ('|' == c) = false)
    (fuel : Nat) (hf : 0 < fuel) (acc l : List Char) :
    splitGo fuel acc (c :: l) = splitGo (fuel - 1) (c :: acc) l := by
  obtain ⟨f, rfl⟩ : ∃ f, fuel = f + 1 := ⟨fuel - 1, by omega⟩
  simp [splitGo, splitTok, List.isPrefixOf, hbar]

theorem splitGo_replicate_sub (c : Char) (hbar : ('|' == c) = false) :
    ∀ (n fuel : Nat) (acc l : List Char), n ≤ fuel →
      splitGo fuel acc (List.replicate n c ++ l) =
        splitGo (fuel - n) (List.replicate n c ++ acc) l := by
  intro n
  induction n with
  | zero => intro fuel acc l _; simp
  | succ m ih =>
    intro fuel acc l hn
    rw [List.replicate_succ, List.cons_append,
      splitGo_char_sub c hbar fuel (by omega) acc _,
      ih (fuel - 1) (c :: acc) l (by omega)]
    congr 1
    · omega
    · rw [← List.singleton_append, ← List.append_assoc, ← List.replicate_succ',
        List.replicate_succ, List.cons_append]

theorem splitGo_tok_sub (fuel : Nat) (hf : 0 < fuel) (acc l : List Char) :
    splitGo fuel acc (splitTok ++ l) = acc.reverse :: splitGo (fuel - 1) [] l := by
  obtain ⟨f, rfl⟩ : ∃ f, fuel = f + 1 := ⟨fuel - 1, by omega⟩
  show splitGo (f + 1) acc ('|' :: ('S' :: 'P' :: 'L' :: 'I' :: 'T' :: '|' :: []) ++ l) = _
  rw [List.cons_append, splitGo]
  rw [if_pos (by simp [splitTok, List.isPrefixOf])]
  simp [splitTok]

theorem splitGo_nil_sub (fuel : Nat) (hf : 0 < fuel) (acc : List Char) :
    splitGo fuel acc [] = [acc.reverse] := by
  obtain ⟨f, rfl⟩ : ∃ f, fuel = f + 1 := ⟨fuel - 1, by omega⟩
  rfl

/-- Splitting the substituted three-sentence text on `|SPLIT|`. -/
theorem splitOnTok_three (nA nB nC : Nat) :
    splitOnTok (List.replicate nA 'a' ++ '.' :: (splitTok ++
        (List.replicate nB 'b' ++ '.' :: (splitTok ++ List.replicate nC 'c')))) =
      [List.replicate nA 'a' ++ ['.'], List.replicate nB 'b' ++ ['.'],
        List.replicate nC 'c'] := by
  have hdot : ('|' == '.') = false := rfl
  have ha : ('|' == 'a') = false := rfl
  have hb : ('|' == 'b') = false := rfl
  have hc : ('|' == 'c') = false := rfl
  have hL : (List.replicate nA 'a' ++ '.' :: (splitTok ++
      (List.replicate nB 'b' ++ '.' :: (splitTok ++ List.replicate nC 'c')))).length =
      nA + nB + nC + 16 := by
    simp [splitTok]
    omega
  rw [splitOnTok, hL]
  rw [splitGo_replicate_sub 'a' ha nA (nA + nB + nC + 16) [] _ (by omega)]
  rw [splitGo_char_sub '.' hdot _ (by omega) _ _]
  rw [splitGo_tok_sub _ (by omega) _ _]
  rw [splitGo_replicate_sub 'b' hb nB _ [] _ (by omega)]
  rw [splitGo_char_sub '.' hdot _ (by omega) _ _]
  rw [splitGo_tok_sub _ (by omega) _ _]
  rw [show List.replicate nC 'c' = List.replicate nC 'c' ++ ([] : List Char) from by simp]
  rw [splitGo_replicate_sub 'c' hc nC _ [] _ (by omega)]
  rw [splitGo_nil_sub _ (by omega) _]
  simp

theorem dropWhile_id_of_all_false {p : Char → Bool} :
    ∀ (l : List Char), (∀ c ∈ l, p c = false) → l.dropWhile p = l := by
  intro l h
  cases l with
  | nil => rfl
  | cons c rest =>
    rw [List.dropWhile_cons, h c (List.mem_cons_self c rest)]
    simp

theorem stripChars_no_space (l : List Char) (h : ∀ c ∈ l, isPySpace c = false) :
    stripChars l = l := by
  unfold stripChars
  rw [dropWhile_id_of_all_false l h,
    dropWhile_id_of_all_false l.reverse (fun c hc => h c (List.mem_reverse.1 hc)),
    List.reverse_reverse]

theorem mem_replicate_dot (n : Nat) (x : Char)
    (hx : x ∈ List.replicate n 'a' ++ ['.'] ∨ x ∈ List.replicate n 'b' ++ ['.'] ∨
      x ∈ List.replicate n 'c') : isPySpace x = false := by
  rcases hx with hx | hx | hx <;>
    (simp only [List.mem_append, List.mem_replicate, List.mem_singleton] at hx) <;>
    first
      | (rcases hx with ⟨-, rfl⟩ | rfl <;> rfl)
      | (rcases hx with ⟨-, rfl⟩ <;> rfl)

/-- The sentence list the chunker sees on the three-sentence text. -/
theorem splitIntoSentences_three (nA nB nC : Nat)
    (hA : 10 ≤ nA) (hB : 10 ≤ nB) (hC : 11 ≤ nC) :
    splitIntoSentences (List.replicate nA 'a' ++ '.' :: ' ' ::
        (List.replicate nB 'b' ++ '.' :: ' ' :: List.replicate nC 'c')) =
      [List.replicate nA 'a' ++ ['.'], List.replicate nB 'b' ++ ['.'],
        List.replicate nC 'c'] := by
  have h1 := sub1_three nA nB nC (by omega) (by omega) (by omega)
  have h2 : sub2 (List.replicate nA 'a' ++ '.' :: (splitTok ++
      (List.replicate nB 'b' ++ '.' :: (splitTok ++ List.replicate nC 'c')))) =
      List.replicate nA 'a' ++ '.' :: (splitTok ++
        (List.replicate nB 'b' ++ '.' :: (splitTok ++ List.replicate nC 'c'))) :=
    sub2Go_id_of_charset ['a', 'b', 'c', '.', '|', 'S', 'P', 'L', 'I', 'T']
      abbrevAlts_not_main _ _ (mem_three_allowed nA nB nC)
  have h3 := splitOnTok_three nA nB nC
  have hsA : stripChars (List.replicate nA 'a' ++ ['.']) = List.replicate nA 'a' ++ ['.'] :=
    stripChars_no_space _ (fun c hc => mem_replicate_dot nA c (Or.inl hc))
  have hsB : stripChars (List.replicate nB 'b' ++ ['.']) = List.replicate nB 'b' ++ ['.'] :=
    stripChars_no_space _ (fun c hc => mem_replicate_dot nB c (Or.inr (Or.inl hc)))
  have hsC : stripChars (List.replicate nC 'c') = List.replicate nC 'c' :=
    stripChars_no_space _ (fun c hc => mem_replicate_dot nC c (Or.inr (Or.inr hc)))
  simp only [splitIntoSentences, h1, h2, h3, List.map_cons, List.map_nil, hsA, hsB, hsC]
  have hlA : (List.replicate nA 'a' ++ ['.']).length = nA + 1 := by simp
  have hlB : (List.replicate nB 'b' ++ ['.']).length = nB + 1 := by simp
  have hlC : (List.replicate nC 'c').length = nC := by simp
  simp only [List.filter, hlA, hlB, hlC]
  rw [decide_eq_true (by omega : 10 < nA + 1),
    decide_eq_true (by omega : 10 < nB + 1),
    decide_eq_true (by omega : 10 < nC)]

theorem dropWhile_cons_of_false {p : Char → Bool} (c : Char) (h : p c = false)
    (l : List Char) : (c :: l).dropWhile p = c :: l := by
  simp [List.dropWhile_cons, h]

theorem stripChars_of_ends (l : List Char) (h1 : l.dropWhile isPySpace = l)
    (h2 : l.reverse.dropWhile isPySpace = l.reverse) : stripChars l = l := by
  unfold stripChars
  rw [h1, h2, List.reverse_reverse]

theorem intercalate_single (x : List Char) : List.intercalate [' '] [x] = x := by
  simp [List.intercalate, List.intersperse]

theorem intercalate_pair (x y : List Char) :
    List.intercalate [' '] [x, y] = x ++ ' ' :: y := by
  simp [List.intercalate, List.intersperse]

theorem getOverlap_single (x : List Char) (tgt : Nat) (h : tgt ≤ x.length) :
    getOverlap [x] tgt = x := by
  simp only [getOverlap, List.reverse_cons, List.reverse_nil, List.nil_append,
    getOverlapGo]
  rw [if_pos (by omega)]
  exact intercalate_single x

theorem getOverlap_pair_last (x y : List Char) (tgt : Nat) (h : tgt ≤ y.length) :
    getOverlap [x, y] tgt = y := by
  have hrev : ([x, y] : List (List Char)).reverse = [y, x] := by simp
  simp only [getOverlap, hrev, getOverlapGo]
  rw [if_pos (by omega)]
  exact intercalate_single y

/-- `chunk_text` on the three-sentence input: the middle chunk is the whole
first sentence (carried over as overlap) plus the second sentence — no
truncation is applied to it. -/
theorem chunkPipeline (aid : Int) (nA nB nC : Nat)
    (hA : 10 ≤ nA) (hB : 10 ≤ nB) (hC : 11 ≤ nC)
    (hAmax : nA + 1 ≤ MAX_CHUNK_CHARS) (hBmax : nB + 1 ≤ MAX_CHUNK_CHARS)
    (hCmax : nC ≤ MAX_CHUNK_CHARS)
    (hEmit : TARGET_CHARS < nA + nB + 2)
    (hOvA : OVERLAP_CHARS ≤ nA + 1) (hOvB : OVERLAP_CHARS ≤ nB + 1)
    (hFin : nB + nC + 2 ≤ MAX_CHUNK_CHARS) (h50 : 50 < nB + nC + 2) :
    chunk_text (List.replicate nA 'a' ++ '.' :: ' ' ::
        (List.replicate nB 'b' ++ '.' :: ' ' :: List.replicate nC 'c')) aid =
      [⟨aid, List.replicate nA 'a' ++ ['.'], 0⟩,
       ⟨aid, (List.replicate nA 'a' ++ ['.']) ++ ' ' :: (List.replicate nB 'b' ++ ['.']), 1⟩,
       ⟨aid, (List.replicate nB 'b' ++ ['.']) ++ ' ' :: List.replicate nC 'c', 2⟩] := by
  have hsent := splitIntoSentences_three nA nB nC hA hB hC
  set s1 : List Char := List.replicate nA 'a' ++ ['.'] with hs1
  set s2 : List Char := List.replicate nB 'b' ++ ['.'] with hs2
  set s3 : List Char := List.replicate nC 'c' with hs3
  have hl1 : s1.length = nA + 1 := by simp [hs1]
  have hl2 : s2.length = nB + 1 := by simp [hs2]
  have hl3 : s3.length = nC := by simp [hs3]
  have step1 : stepSentence aid ⟨[], [], 0, 0⟩ s1 = ⟨[], [s1], nA + 1, 0⟩ := by
    simp only [stepSentence]
    rw [if_neg (by simp)]
    rw [if_neg (by rw [hl1]; omega)]
    simp [hl1]
  have step2 : stepSentence aid ⟨[], [s1], nA + 1, 0⟩ s2 =
      ⟨[⟨aid, s1, 0⟩], [s1, s2], (nA + 1) + (nB + 1), 1⟩ := by
    simp only [stepSentence]
    rw [if_pos ⟨by rw [hl2]; simp only [TARGET_CHARS, TARGET_TOKENS, CHARS_PER_TOKEN]
          at hEmit ⊢; omega, by simp⟩]
    rw [intercalate_single]
    rw [getOverlap_single s1 OVERLAP_CHARS (by omega)]
    rw [if_pos (by simp [hs1]), if_pos (by simp [hs1])]
    rw [if_neg (by rw [hl2]; omega)]
    simp [hl1, hl2]
  have step3 : stepSentence aid ⟨[⟨aid, s1, 0⟩], [s1, s2], (nA + 1) + (nB + 1), 1⟩ s3 =
      ⟨[⟨aid, s1, 0⟩, ⟨aid, s1 ++ ' ' :: s2, 1⟩], [s2, s3], (nB + 1) + nC, 2⟩ := by
    simp only [stepSentence]
    rw [if_pos ⟨by rw [hl3]; simp only [TARGET_CHARS, TARGET_TOKENS, CHARS_PER_TOKEN]
          at hEmit ⊢; omega, by simp⟩]
    rw [intercalate_pair]
    rw [getOverlap_pair_last s1 s2 OVERLAP_CHARS (by omega)]
    rw [if_pos (by simp [hs2]), if_pos (by simp [hs2])]
    rw [if_neg (by rw [hl3]; omega)]
    simp [hl2, hl3]
  have hfinal : finishChunks aid ⟨[⟨aid, s1, 0⟩, ⟨aid, s1 ++ ' ' :: s2, 1⟩],
      [s2, s3], (nB + 1) + nC, 2⟩ =
      [⟨aid, s1, 0⟩, ⟨aid, s1 ++ ' ' :: s2, 1⟩, ⟨aid, s2 ++ ' ' :: s3, 2⟩] := by
    have hlen23 : (s2 ++ ' ' :: s3).length = nB + nC + 2 := by
      simp [hl2, hl3]
      omega
    have hstrip : stripChars (s2 ++ ' ' :: s3) = s2 ++ ' ' :: s3 := by
      obtain ⟨b, hb⟩ : ∃ b, nB = b + 1 := ⟨nB - 1, by omega⟩
      obtain ⟨c, hc⟩ : ∃ c, nC = c + 1 := ⟨nC - 1, by omega⟩
      apply stripChars_of_ends
      · rw [show s2 ++ ' ' :: s3 = 'b' :: (List.replicate b 'b' ++ '.' :: ' ' :: s3) from by
          rw [hs2, hb]
          simp [List.replicate_succ]]
        exact dropWhile_cons_of_false 'b' rfl _
      · rw [show (s2 ++ ' ' :: s3).reverse =
            'c' :: (List.replicate c 'c' ++ ' ' :: s2.reverse) from by
          rw [hs3, hc]
          simp [List.replicate_succ', List.reverse_append]]
        exact dropWhile_cons_of_false 'c' rfl _
    simp only [finishChunks]
    rw [if_pos (by simp)]
    rw [intercalate_pair]
    rw [show (if MAX_CHUNK_CHARS < (s2 ++ ' ' :: s3).length
        then List.take MAX_CHUNK_CHARS (s2 ++ ' ' :: s3) else s2 ++ ' ' :: s3) =
          s2 ++ ' ' :: s3 from if_neg (by rw [hlen23]; omega)]
    rw [if_pos (by rw [hstrip, hlen23]; omega)]
    rfl
  unfold chunk_text
  rw [hsent]
  rw [if_neg (by simp)]
  simp only [List.foldl_cons, List.foldl_nil, step1, step2, step3, hfinal]

/-! ## C3: a mid-stream chunk can exceed the hard ceiling -/

/-- C3, failing input: on `ex3Text` the chunker emits a middle chunk of 6502
characters — the 3001-character overlap plus a 3500-character sentence — above
`MAX_CHUNK_CHARS = 6000`, because the mid-stream emission path never applies
the hard truncation (only single sentences and the final chunk are
truncated). -/
theorem chunk_exceeds_hard_max :
    (chunk_text ex3Text 1).map (fun c => c.chunk_text.length) = [3001, 6502, 3513] ∧
    ∃ c ∈ chunk_text ex3Text 1, MAX_CHUNK_CHARS < c.chunk_text.length := by
  have h := chunkPipeline 1 3000 3499 12 (by omega) (by omega) (by omega)
    (by decide) (by decide) (by decide) (by decide) (by decide) (by decide)
    (by decide) (by decide)
  have hex : chunk_text ex3Text 1 =
      [⟨1, List.replicate 3000 'a' ++ ['.'], 0⟩,
       ⟨1, (List.replicate 3000 'a' ++ ['.']) ++ ' ' ::
          (List.replicate 3499 'b' ++ ['.']), 1⟩,
       ⟨1, (List.replicate 3499 'b' ++ ['.']) ++ ' ' :: List.replicate 12 'c', 2⟩] := h
  rw [hex]
  constructor
  · simp only [List.map_cons, List.map_nil, List.length_append, List.length_cons,
      List.length_replicate, List.length_nil]
  · refine ⟨⟨1, (List.replicate 3000 'a' ++ ['.']) ++ ' ' ::
      (List.replicate 3499 'b' ++ ['.']), 1⟩,
      List.mem_cons_of_mem _ (List.mem_cons_self _ _), ?_⟩
    simp only [List.length_append, List.length_cons, List.length_replicate,
      List.length_nil]
    norm_num [MAX_CHUNK_CHARS]

/-! ## C4: the carried-over overlap exceeds the overlap budget -/

/-- C4 counterexample: on `ex4Text` the first chunk (122 characters) is
carried over whole into the second chunk, so consecutive chunks share a
122-character text — a suffix of chunk 0 and prefix of chunk 1 — strictly
larger than the 120-character overlap budget. -/
theorem overlap_exceeds_budget_cex :
    chunk_text ex4Text 1 =
      [⟨1, List.replicate 121 'a' ++ ['.'], 0⟩,
       ⟨1, (List.replicate 121 'a' ++ ['.']) ++ ' ' ::
          (List.replicate 1078 'b' ++ ['.']), 1⟩,
       ⟨1, (List.replicate 1078 'b' ++ ['.']) ++ ' ' :: List.replicate 12 'c', 2⟩] ∧
    (List.replicate 121 'a' ++ ['.']) <:+ (List.replicate 121 'a' ++ ['.']) ∧
    (List.replicate 121 'a' ++ ['.']) <+:
      ((List.replicate 121 'a' ++ ['.']) ++ ' ' :: (List.replicate 1078 'b' ++ ['.'])) ∧
    OVERLAP_CHARS < (List.replicate 121 'a' ++ ['.']).length := by
  refine ⟨?_, List.suffix_refl _, List.prefix_append _ _, ?_⟩
  · exact chunkPipeline 1 121 1078 12 (by omega) (by omega) (by omega)
      (by decide) (by decide) (by decide) (by decide) (by decide) (by decide)
      (by decide) (by decide)
  · simp [OVERLAP_CHARS, OVERLAP_TOKENS, CHARS_PER_TOKEN]

theorem getOverlapGo_spec (tgt : Nat) :
    ∀ (l : List (List Char)) (total : Nat) (acc : List (List Char)), total < tgt →
      ∃ p : List (List Char),
        getOverlapGo tgt l total acc = p.reverse ++ acc ∧
        p <+: l ∧
        (p = l ∨ tgt ≤ total + (p.map List.length).sum) ∧
        total + ((p.dropLast).map List.length).sum < tgt := by
  intro l
  induction l with
  | nil =>
    intro total acc h
    exact ⟨[], rfl, List.nil_prefix, Or.inl rfl, by simpa using h⟩
  | cons x rest ih =>
    intro total acc h
    by_cases hstop : tgt ≤ total + x.length
    · refine ⟨[x], by simp [getOverlapGo, hstop], ⟨rest, rfl⟩,
        Or.inr (by simpa using hstop), by simpa using h⟩
    · obtain ⟨p', hgo, hpre, hor, hlast⟩ := ih (total + x.length) (x :: acc) (by omega)
      refine ⟨x :: p', ?_, ?_, ?_, ?_⟩
      · rw [show getOverlapGo tgt (x :: rest) total acc =
            getOverlapGo tgt rest (total + x.length) (x :: acc) from by
          simp [getOverlapGo, hstop]]
        rw [hgo]
        simp
      · obtain ⟨t, ht⟩ := hpre
        exact ⟨t, by rw [← ht]; rfl⟩
      · rcases hor with rfl | hle
        · exact Or.inl rfl
        · refine Or.inr ?_
          simp only [List.map_cons, List.sum_cons]
          omega
      · cases p' with
        | nil => simpa using h
        | cons y ys =>
          rw [List.dropLast_cons₂]
          simp only [List.map_cons, List.sum_cons]
          omega

/-- C4 amended: the text carried from one chunk into the next is the join of
a whole-sentence suffix of the previous chunk, chosen minimally so that its
character total *reaches* the overlap budget: all sentences after its first
total strictly less than the budget, and either the whole chunk was taken or
the suffix total is at least the budget.  The shared text is therefore not
bounded above by the budget (it can exceed it by up to one sentence, as the
counterexample shows). -/
theorem getOverlap_minimal_suffix :
    ∀ (parts : List (List Char)),
      ∃ s : List (List Char),
        s <:+ parts ∧
        getOverlap parts OVERLAP_CHARS = List.intercalate [' '] s ∧
        ((s.drop 1).map List.length).sum < OVERLAP_CHARS ∧
        (s = parts ∨ OVERLAP_CHARS ≤ (s.map List.length).sum) := by
  intro parts
  obtain ⟨p, hgo, hpre, hor, hlast⟩ :=
    getOverlapGo_spec OVERLAP_CHARS parts.reverse 0 [] (by decide)
  refine ⟨p.reverse, ?_, ?_, ?_, ?_⟩
  · have hiff := @List.reverse_suffix (List Char) p parts.reverse
    rw [List.reverse_reverse] at hiff
    exact hiff.2 hpre
  · rw [getOverlap, hgo, List.append_nil]
  · rw [List.drop_one, List.tail_reverse, List.map_reverse, List.sum_reverse]
    simpa using hlast
  · rcases hor with rfl | hle
    · exact Or.inl (List.reverse_reverse parts)
    · refine Or.inr ?_
      rw [List.map_reverse, List.sum_reverse]
      simpa using hle

/-! ## C1 / C10: structure of the fusion score map -/

theorem any_id_eq_false (m : List MapEntry) (cid : Nat)
    (h : cid ∉ m.map MapEntry.chunk_id) :
    (m.any (fun x => x.chunk_id = cid)) = false := by
  rw [List.any_eq_false]
  intro x hx
  simp only [decide_eq_true_eq]
  intro heq
  exact h (List.mem_map.2 ⟨x, hx, heq⟩)

theorem any_id_eq_true (m : List MapEntry) (cid : Nat)
    (h : cid ∈ m.map MapEntry.chunk_id) :
    (m.any (fun x => x.chunk_id = cid)) = true := by
  rw [List.any_eq_true]
  obtain ⟨x, hx, heq⟩ := List.mem_map.1 h
  exact ⟨x, hx, by simp [heq]⟩

theorem lookupNormOpt_eq_none (l : List RDoc) (ns : List ℚ) (cid : Nat)
    (h : cid ∉ l.map RDoc.chunk_id) : lookupNormOpt l ns cid = none := by
  induction l generalizing ns with
  | nil => rfl
  | cons r rs ih =>
    rw [List.map_cons, List.mem_cons, not_or] at h
    have hne : ¬ (r.chunk_id = cid) := fun he => h.1 he.symm
    rw [lookupNormOpt, if_neg hne]
    exact ih ns.tail h.2

theorem lookupDoc_chunk_id (l : List RDoc) (cid : Nat) (d : RDoc)
    (h : lookupDoc l cid = some d) : d.chunk_id = cid := by
  induction l with
  | nil => cases h
  | cons r rs ih =>
    by_cases he : r.chunk_id = cid
    · simp only [lookupDoc, if_pos he, Option.some_inj] at h
      rw [← h]
      exact he
    · simp only [lookupDoc, if_neg he] at h
      exact ih h

theorem lookupDoc_unique (l : List RDoc) (hnd : (l.map RDoc.chunk_id).Nodup)
    (d : RDoc) (hd : d ∈ l) : lookupDoc l d.chunk_id = some d := by
  induction l with
  | nil => cases hd
  | cons r rs ih =>
    rcases List.mem_cons.1 hd with rfl | hd'
    · simp [lookupDoc]
    · have hr : r.chunk_id ≠ d.chunk_id := by
        intro he
        have : r.chunk_id ∈ rs.map RDoc.chunk_id := he ▸ List.mem_map.2 ⟨d, hd', rfl⟩
        exact (List.nodup_cons.1 (by simpa using hnd)).1 this
      simp only [lookupDoc, if_neg hr]
      exact ih (List.nodup_cons.1 (by simpa using hnd)).2 hd'

theorem zipVec_ids (v : List RDoc) (vs : List ℚ) :
    (zipVec v vs).map MapEntry.chunk_id = v.map RDoc.chunk_id := by
  induction v generalizing vs with
  | nil => rfl
  | cons r rs ih => simp [zipVec, ih]

theorem zipVec_mem (v : List RDoc) (vs : List ℚ) (hnd : (v.map RDoc.chunk_id).Nodup) :
    ∀ e ∈ zipVec v vs,
      e.chunk_id ∈ v.map RDoc.chunk_id ∧ e.fromVec = true ∧ e.bm25_score = 0 ∧
      lookupNormOpt v vs e.chunk_id = some e.vector_score ∧
      lookupDoc v e.chunk_id = some e.data := by
  induction v generalizing vs with
  | nil => intro e he; cases he
  | cons r rs ih =>
    intro e he
    rcases List.mem_cons.1 he with rfl | he'
    · refine ⟨by simp, rfl, rfl, ?_, ?_⟩
      · simp [lookupNormOpt]
      · simp [lookupDoc]
    · rw [List.map_cons, List.nodup_cons] at hnd
      obtain ⟨hmem, hfv, hbm, hlook, hdoc⟩ := ih vs.tail hnd.2 e he'
      have hne : r.chunk_id ≠ e.chunk_id := by
        intro hcontr
        exact hnd.1 (hcontr ▸ hmem)
      refine ⟨List.mem_cons_of_mem _ hmem, hfv, hbm, ?_, ?_⟩
      · rw [lookupNormOpt, if_neg hne]
        exact hlook
      · rw [lookupDoc, if_neg hne]
        exact hdoc

theorem newBm_mem (b : List RDoc) (hnd : (b.map RDoc.chunk_id).Nodup) :
    ∀ (seen : List Nat) (bs : List ℚ), ∀ e ∈ newBm seen b bs,
      e.chunk_id ∉ seen ∧ e.chunk_id ∈ b.map RDoc.chunk_id ∧
      e.fromVec = false ∧ e.vector_score = 0 ∧
      lookupNormOpt b bs e.chunk_id = some e.bm25_score ∧
      lookupDoc b e.chunk_id = some e.data := by
  induction b with
  | nil => intro seen bs e he; cases he
  | cons r rs ih =>
    intro seen bs e he
    rw [List.map_cons, List.nodup_cons] at hnd
    by_cases hs : r.chunk_id ∈ seen
    · rw [newBm, if_pos hs] at he
      obtain ⟨h1, h2, h3, h4, h5, h6⟩ := ih hnd.2 seen bs.tail e he
      have hne : r.chunk_id ≠ e.chunk_id := fun hc => hnd.1 (hc ▸ h2)
      refine ⟨h1, List.mem_cons_of_mem _ h2, h3, h4, ?_, ?_⟩
      · rw [lookupNormOpt, if_neg hne]
        exact h5
      · rw [lookupDoc, if_neg hne]
        exact h6
    · rw [newBm, if_neg hs] at he
      rcases List.mem_cons.1 he with rfl | he'
      · exact ⟨hs, by simp, rfl, rfl, by simp [lookupNormOpt], by simp [lookupDoc]⟩
      · obtain ⟨h1, h2, h3, h4, h5, h6⟩ := ih hnd.2 seen bs.tail e he'
        have hne : r.chunk_id ≠ e.chunk_id := fun hc => hnd.1 (hc ▸ h2)
        refine ⟨h1, List.mem_cons_of_mem _ h2, h3, h4, ?_, ?_⟩
        · rw [lookupNormOpt, if_neg hne]
          exact h5
        · rw [lookupDoc, if_neg hne]
          exact h6

theorem newBm_covers (b : List RDoc) :
    ∀ (seen : List Nat) (bs : List ℚ) (cid : Nat),
      cid ∈ b.map RDoc.chunk_id → cid ∉ seen →
      ∃ e ∈ newBm seen b bs, e.chunk_id = cid := by
  induction b with
  | nil => intro seen bs cid h _; simp at h
  | cons r rs ih =>
    intro seen bs cid h hseen
    rw [List.map_cons] at h
    rcases List.mem_cons.1 h with heq | h'
    · rw [newBm, if_neg (heq ▸ hseen)]
      exact ⟨_, List.mem_cons_self _ _, heq.symm⟩
    · by_cases hs : r.chunk_id ∈ seen
      · rw [newBm, if_pos hs]
        exact ih seen bs.tail cid h' hseen
      · rw [newBm, if_neg hs]
        obtain ⟨e, he, heq⟩ := ih seen bs.tail cid h' hseen
        exact ⟨e, List.mem_cons_of_mem _ he, heq⟩

theorem applyBm_nil (bs : List ℚ) (x : MapEntry) : applyBm [] bs x = x := rfl

theorem applyBm_chunk_id (b : List RDoc) (bs : List ℚ) (x : MapEntry) :
    (applyBm b bs x).chunk_id = x.chunk_id := by
  unfold applyBm
  cases lookupNormOpt b bs x.chunk_id <;> rfl

theorem applyBm_comp (r : RDoc) (rs : List RDoc) (bs : List ℚ)
    (hfresh : r.chunk_id ∉ rs.map RDoc.chunk_id) (x : MapEntry) :
    applyBm rs bs.tail (if x.chunk_id = r.chunk_id
        then { x with bm25_score := bs.headD 0 } else x) =
      applyBm (r :: rs) bs x := by
  by_cases he : x.chunk_id = r.chunk_id
  · rw [if_pos he]
    unfold applyBm
    rw [show lookupNormOpt rs bs.tail x.chunk_id = none from
        lookupNormOpt_eq_none rs bs.tail x.chunk_id (he ▸ hfresh)]
    rw [lookupNormOpt, if_pos he.symm]
  · rw [if_neg he]
    unfold applyBm
    rw [lookupNormOpt, if_neg (fun hc => he hc.symm)]

theorem applyBm_comp_of_ne (r : RDoc) (rs : List RDoc) (bs : List ℚ) (x : MapEntry)
    (hne : x.chunk_id ≠ r.chunk_id) :
    applyBm rs bs.tail x = applyBm (r :: rs) bs x := by
  unfold applyBm
  rw [lookupNormOpt, if_neg (fun hc => hne hc.symm)]

theorem newBm_seen_irrel (c : Nat) :
    ∀ (rs : List RDoc) (seen : List Nat) (bs : List ℚ),
      (∀ r ∈ rs, r.chunk_id ≠ c) →
      newBm (seen ++ [c]) rs bs = newBm seen rs bs := by
  intro rs
  induction rs with
  | nil => intro seen bs _; rfl
  | cons r rest ih =>
    intro seen bs h
    have hne : r.chunk_id ≠ c := h r (List.mem_cons_self r rest)
    have hmem : (r.chunk_id ∈ seen ++ [c]) ↔ (r.chunk_id ∈ seen) := by
      simp [List.mem_append, hne]
    by_cases hs : r.chunk_id ∈ seen
    · rw [newBm, if_pos (hmem.2 hs), newBm, if_pos hs]
      exact ih seen bs.tail (fun r' hr' => h r' (List.mem_cons_of_mem r hr'))
    · rw [newBm, if_neg (fun hc => hs (hmem.1 hc)), newBm, if_neg hs]
      rw [ih seen bs.tail (fun r' hr' => h r' (List.mem_cons_of_mem r hr'))]

theorem buildMapVec_eq (v : List RDoc) :
    ∀ (vs : List ℚ) (m : List MapEntry),
      (∀ r ∈ v, r.chunk_id ∉ m.map MapEntry.chunk_id) →
      (v.map RDoc.chunk_id).Nodup →
      buildMapVec v vs m = m ++ zipVec v vs := by
  induction v with
  | nil => intro vs m _ _; simp [buildMapVec, zipVec]
  | cons r rs ih =>
    intro vs m hdisj hnd
    rw [List.map_cons, List.nodup_cons] at hnd
    rw [buildMapVec, dictSetVec,
      if_neg (by rw [any_id_eq_false m r.chunk_id (hdisj r (List.mem_cons_self r rs))]
                 exact Bool.false_ne_true)]
    have hdisj' : ∀ r' ∈ rs, r'.chunk_id ∉
        (m ++ [(⟨r.chunk_id, r, true, vs.headD 0, 0⟩ : MapEntry)]).map MapEntry.chunk_id := by
      intro r' hr'
      rw [List.map_append, List.mem_append]
      rintro (hin | hin)
      · exact hdisj r' (List.mem_cons_of_mem r hr') hin
      · simp only [List.map_cons, List.map_nil, List.mem_singleton] at hin
        exact hnd.1 (hin ▸ List.mem_map.2 ⟨r', hr', rfl⟩)
    rw [ih vs.tail _ hdisj' hnd.2]
    simp [zipVec]

theorem buildMapBm_eq (b : List RDoc) :
    ∀ (bs : List ℚ) (m : List MapEntry),
      (b.map RDoc.chunk_id).Nodup →
      buildMapBm b bs m =
        m.map (applyBm b bs) ++ newBm (m.map MapEntry.chunk_id) b bs := by
  induction b with
  | nil =>
    intro bs m _
    simp only [buildMapBm, newBm, List.append_nil]
    rw [show m.map (applyBm [] bs) = m.map id from List.map_congr_left
      (fun x _ => applyBm_nil bs x), List.map_id]
  | cons r rs ih =>
    intro bs m hnd
    rw [List.map_cons, List.nodup_cons] at hnd
    have hfresh : r.chunk_id ∉ rs.map RDoc.chunk_id := hnd.1
    by_cases hs : r.chunk_id ∈ m.map MapEntry.chunk_id
    · rw [buildMapBm, dictSetBm, if_pos (by rw [any_id_eq_true m r.chunk_id hs])]
      rw [ih bs.tail _ hnd.2]
      have hids : (m.map (fun x => if x.chunk_id = r.chunk_id
          then { x with bm25_score := bs.headD 0 } else x)).map MapEntry.chunk_id =
          m.map MapEntry.chunk_id := by
        rw [List.map_map]
        refine List.map_congr_left ?_
        intro x _
        by_cases he : x.chunk_id = r.chunk_id <;> simp [he]
      rw [hids, List.map_map]
      rw [show newBm (m.map MapEntry.chunk_id) (r :: rs) bs =
          newBm (m.map MapEntry.chunk_id) rs bs.tail from by rw [newBm, if_pos hs]]
      congr 1
      refine List.map_congr_left ?_
      intro x _
      exact applyBm_comp r rs bs hfresh x
    · rw [buildMapBm, dictSetBm,
        if_neg (by rw [any_id_eq_false m r.chunk_id hs]; exact Bool.false_ne_true)]
      rw [ih bs.tail _ hnd.2]
      rw [List.map_append, List.map_append]
      have hids : (([⟨r.chunk_id, r, false, 0, bs.headD 0⟩] : List MapEntry)).map
          MapEntry.chunk_id = [r.chunk_id] := rfl
      rw [hids]
      rw [newBm_seen_irrel r.chunk_id rs (m.map MapEntry.chunk_id) bs.tail
        (fun r' hr' hc => hfresh (hc ▸ List.mem_map.2 ⟨r', hr', rfl⟩))]
      rw [show newBm (m.map MapEntry.chunk_id) (r :: rs) bs =
          ⟨r.chunk_id, r, false, 0, bs.headD 0⟩ ::
            newBm (m.map MapEntry.chunk_id) rs bs.tail from by rw [newBm, if_neg hs]]
      have hone : ([⟨r.chunk_id, r, false, 0, bs.headD 0⟩] : List MapEntry).map
          (applyBm rs bs.tail) = [⟨r.chunk_id, r, false, 0, bs.headD 0⟩] := by
        simp only [List.map_cons, List.map_nil]
        rw [show applyBm rs bs.tail ⟨r.chunk_id, r, false, 0, bs.headD 0⟩ =
            ⟨r.chunk_id, r, false, 0, bs.headD 0⟩ from by
          unfold applyBm
          rw [show lookupNormOpt rs bs.tail
              (⟨r.chunk_id, r, false, 0, bs.headD 0⟩ : MapEntry).chunk_id = none from
            lookupNormOpt_eq_none rs bs.tail _ hfresh]]
      rw [hone]
      have hmaps : m.map (applyBm rs bs.tail) = m.map (applyBm (r :: rs) bs) := by
        refine List.map_congr_left ?_
        intro x hx
        refine applyBm_comp_of_ne r rs bs x ?_
        intro hc
        exact hs (hc ▸ List.mem_map.2 ⟨x, hx, rfl⟩)
      rw [hmaps]
      simp

theorem score_map_eq (v b : List RDoc)
    (hv : (v.map RDoc.chunk_id).Nodup) (hb : (b.map RDoc.chunk_id).Nodup) :
    score_map v b =
      (zipVec v (normalize_scores (v.map RDoc.score))).map
        (applyBm b (normalize_scores (b.map RDoc.score))) ++
      newBm (v.map RDoc.chunk_id) b (normalize_scores (b.map RDoc.score)) := by
  unfold score_map
  rw [buildMapVec_eq v _ [] (by simp) hv, List.nil_append,
    buildMapBm_eq b _ _ hb, zipVec_ids]

theorem score_map_entries (v b : List RDoc)
    (hv : (v.map RDoc.chunk_id).Nodup) (hb : (b.map RDoc.chunk_id).Nodup) :
    ∀ e ∈ score_map v b,
      e.data.chunk_id = e.chunk_id ∧
      e.vector_score = vecNorm v e.chunk_id ∧
      e.bm25_score = bmNorm b e.chunk_id ∧
      (e.chunk_id ∈ v.map RDoc.chunk_id →
        e.fromVec = true ∧ lookupDoc v e.chunk_id = some e.data) ∧
      (e.chunk_id ∉ v.map RDoc.chunk_id →
        e.fromVec = false ∧ e.chunk_id ∈ b.map RDoc.chunk_id ∧
        lookupDoc b e.chunk_id = some e.data) := by
  intro e he
  rw [score_map_eq v b hv hb, List.mem_append] at he
  rcases he with he | he
  · obtain ⟨e', he', rfl⟩ := List.mem_map.1 he
    obtain ⟨hmem, hfv, hbm0, hlook, hdoc⟩ :=
      zipVec_mem v (normalize_scores (v.map RDoc.score)) hv e' he'
    have hdid : e'.data.chunk_id = e'.chunk_id := lookupDoc_chunk_id v _ _ hdoc
    cases hb2 : lookupNormOpt b (normalize_scores (b.map RDoc.score)) e'.chunk_id with
    | none =>
      have happ : applyBm b (normalize_scores (b.map RDoc.score)) e' = e' := by
        unfold applyBm
        rw [hb2]
      rw [happ]
      refine ⟨hdid, ?_, ?_, fun _ => ⟨hfv, hdoc⟩, fun hnotv => absurd hmem hnotv⟩
      · rw [vecNorm, lookupNorm, hlook]
        rfl
      · rw [bmNorm, lookupNorm, hb2, hbm0]
        rfl
    | some s =>
      have happ : applyBm b (normalize_scores (b.map RDoc.score)) e' =
          { e' with bm25_score := s } := by
        unfold applyBm
        rw [hb2]
      rw [happ]
      refine ⟨hdid, ?_, ?_, fun _ => ⟨hfv, hdoc⟩, fun hnotv => absurd hmem hnotv⟩
      · rw [vecNorm, lookupNorm, hlook]
        rfl
      · rw [bmNorm, lookupNorm, hb2]
        rfl
  · obtain ⟨hseen, hmemb, hfv, hvs0, hlookb, hdocb⟩ :=
      newBm_mem b hb (v.map RDoc.chunk_id) (normalize_scores (b.map RDoc.score)) e he
    refine ⟨lookupDoc_chunk_id b _ _ hdocb, ?_, ?_,
      fun hin => absurd hin hseen, fun _ => ⟨hfv, hmemb, hdocb⟩⟩
    · rw [vecNorm, lookupNorm, lookupNormOpt_eq_none v _ _ hseen, hvs0]
      rfl
    · rw [bmNorm, lookupNorm, hlookb]
      rfl

theorem score_map_covers (v b : List RDoc)
    (hv : (v.map RDoc.chunk_id).Nodup) (hb : (b.map RDoc.chunk_id).Nodup) :
    ∀ cid : Nat, (∃ e ∈ score_map v b, e.chunk_id = cid) ↔
      (cid ∈ v.map RDoc.chunk_id ∨ cid ∈ b.map RDoc.chunk_id) := by
  intro cid
  rw [score_map_eq v b hv hb]
  constructor
  · rintro ⟨e, he, rfl⟩
    rw [List.mem_append] at he
    rcases he with he | he
    · obtain ⟨e', he', rfl⟩ := List.mem_map.1 he
      rw [applyBm_chunk_id]
      exact Or.inl (zipVec_mem v _ hv e' he').1
    · exact Or.inr (newBm_mem b hb _ _ e he).2.1
  · intro hcid
    by_cases hin : cid ∈ v.map RDoc.chunk_id
    · have : cid ∈ (zipVec v (normalize_scores (v.map RDoc.score))).map
          MapEntry.chunk_id := by rw [zipVec_ids]; exact hin
      obtain ⟨e', he', heq⟩ := List.mem_map.1 this
      refine ⟨applyBm b (normalize_scores (b.map RDoc.score)) e',
        List.mem_append_left _ (List.mem_map.2 ⟨e', he', rfl⟩), ?_⟩
      rw [applyBm_chunk_id]
      exact heq
    · rcases hcid with hcid | hcid
      · exact absurd hcid hin
      · obtain ⟨e, he, heq⟩ := newBm_covers b (v.map RDoc.chunk_id) _ cid hcid hin
        exact ⟨e, List.mem_append_right _ he, heq⟩

theorem mem_score_map_of_mem_take (v b : List RDoc) (k : Nat) (e : MapEntry)
    (he : e ∈ (sortDescBy fusedOf (score_map v b)).take k) : e ∈ score_map v b :=
  (perm_sortDescBy fusedOf (score_map v b)).mem_iff.1 (List.mem_of_mem_take he)

/-- C1: with identity-distinct candidate lists, every score-map entry fuses
exactly `0.7 × normalized semantic + 0.3 × normalized lexical` (0 for a list
the chunk identity is absent from), the map covers exactly the identities of
the two candidate lists, and the returned sequence is the fused map sorted by
fused score descending and truncated to `top_k`, each entry carrying its
fused, vector and lexical scores. -/
theorem fusion_weighted_sum_and_ranking (v b : List RDoc) (top_k : Nat)
    (hv : (v.map RDoc.chunk_id).Nodup) (hb : (b.map RDoc.chunk_id).Nodup) :
    (∀ cid : Nat, (∃ e ∈ score_map v b, e.chunk_id = cid) ↔
      (cid ∈ v.map RDoc.chunk_id ∨ cid ∈ b.map RDoc.chunk_id)) ∧
    (∀ e ∈ score_map v b,
      e.vector_score = vecNorm v e.chunk_id ∧
      e.bm25_score = bmNorm b e.chunk_id ∧
      fusedOf e = VECTOR_WEIGHT * vecNorm v e.chunk_id +
        BM25_WEIGHT * bmNorm b e.chunk_id) ∧
    fuse_results v b top_k =
      ((sortDescBy fusedOf (score_map v b)).take top_k).map entryToResult ∧
    (fuse_results v b top_k).length ≤ top_k ∧
    ((fuse_results v b top_k).map FusedResult.fused_score).Pairwise
      (fun x y => y ≤ x) ∧
    (∀ r ∈ fuse_results v b top_k,
      r.vector_score = vecNorm v r.chunk_id ∧
      r.bm25_score = bmNorm b r.chunk_id ∧
      r.fused_score = VECTOR_WEIGHT * r.vector_score + BM25_WEIGHT * r.bm25_score) := by
  refine ⟨score_map_covers v b hv hb, ?_, rfl, ?_, ?_, ?_⟩
  · intro e he
    obtain ⟨-, hvs, hbs, -, -⟩ := score_map_entries v b hv hb e he
    exact ⟨hvs, hbs, by rw [fusedOf, hvs, hbs]⟩
  · rw [fuse_results, List.length_map]
    exact List.length_take_le _ _
  · rw [fuse_results, List.map_map]
    have hcomp : (FusedResult.fused_score ∘ entryToResult) = fusedOf := by
      funext e
      rfl
    rw [hcomp]
    rw [List.pairwise_map]
    exact (pairwise_sortDescBy fusedOf (score_map v b)).sublist
      (List.take_sublist top_k _)
  · intro r hr
    rw [fuse_results] at hr
    obtain ⟨e, he, rfl⟩ := List.mem_map.1 hr
    have hmem := mem_score_map_of_mem_take v b top_k e he
    obtain ⟨hdid, hvs, hbs, -, -⟩ := score_map_entries v b hv hb e hmem
    have hrid : (entryToResult e).chunk_id = e.chunk_id := hdid
    refine ⟨?_, ?_, ?_⟩
    · rw [show (entryToResult e).vector_score = e.vector_score from rfl, hrid, hvs]
    · rw [show (entryToResult e).bm25_score = e.bm25_score from rfl, hrid, hbs]
    · rfl

/-- C10: when a chunk identity occurs in both candidate lists, the returned
record is the copy of the vector-search candidate's record (its text, its
other fields, and its raw `similarity`), not the lexical one. -/
theorem fusion_data_from_vector (v b : List RDoc) (top_k : Nat)
    (hv : (v.map RDoc.chunk_id).Nodup) (hb : (b.map RDoc.chunk_id).Nodup) :
    ∀ r ∈ fuse_results v b top_k, ∀ dv ∈ v, ∀ db ∈ b,
      dv.chunk_id = r.chunk_id → db.chunk_id = r.chunk_id →
      r.chunk_text = dv.chunk_text ∧ r.payload = dv.payload ∧
      r.similarity = some dv.score := by
  intro r hr dv hdv db hdb hdveq hdbeq
  rw [fuse_results] at hr
  obtain ⟨e, he, rfl⟩ := List.mem_map.1 hr
  have hmem := mem_score_map_of_mem_take v b top_k e he
  obtain ⟨hdid, -, -, hinv, -⟩ := score_map_entries v b hv hb e hmem
  have hrid : (entryToResult e).chunk_id = e.chunk_id := hdid
  have hcidv : e.chunk_id ∈ v.map RDoc.chunk_id := by
    rw [← hrid, ← hdveq]
    exact List.mem_map.2 ⟨dv, hdv, rfl⟩
  obtain ⟨hfv, hdoc⟩ := hinv hcidv
  have hduniq : lookupDoc v dv.chunk_id = some dv := lookupDoc_unique v hv dv hdv
  rw [hdveq, hrid] at hduniq
  rw [hduniq, Option.some_inj] at hdoc
  refine ⟨?_, ?_, ?_⟩
  · rw [show (entryToResult e).chunk_text = e.data.chunk_text from rfl, ← hdoc]
  · rw [show (entryToResult e).payload = e.data.payload from rfl, ← hdoc]
  · rw [show (entryToResult e).similarity =
        (if e.fromVec then some e.data.score else none) from rfl, if_pos hfv, ← hdoc]

theorem fusion_weighted_sum_and_ranking_witness :
    (([docA, docB] : List RDoc).map RDoc.chunk_id).Nodup ∧
    (fuse_results [docA, docB] [docB, docC] 5).length ≤ 5 :=
  ⟨by decide, (fusion_weighted_sum_and_ranking [docA, docB] [docB, docC] 5
      (by decide) (by decide)).2.2.2.1⟩

set_option maxRecDepth 4000 in
theorem fusion_data_from_vector_witness :
    (([docA, docB] : List RDoc).map RDoc.chunk_id).Nodup ∧
    ((⟨2, "beta text two".toList, "B", some (1/2 : ℚ), 0, 0, 0⟩ : FusedResult).chunk_text
        = docB.chunk_text ∧
      (⟨2, "beta text two".toList, "B", some (1/2 : ℚ), 0, 0, 0⟩ : FusedResult).payload
        = docB.payload ∧
      (⟨2, "beta text two".toList, "B", some (1/2 : ℚ), 0, 0, 0⟩ : FusedResult).similarity
        = some docB.score) := by
  refine ⟨by decide, ?_⟩
  have hfr : fuse_results [docA, docB] [docB, docC] 5 =
      [⟨1, "alpha text one".toList, "A", some (9/10 : ℚ), 7/10, 1, 0⟩,
       ⟨3, "gamma text three".toList, "C", none, 3/10, 0, 1⟩,
       ⟨2, "beta text two".toList, "B", some (1/2 : ℚ), 0, 0, 0⟩] := by
    norm_num [fuse_results, score_map, buildMapVec, buildMapBm, dictSetVec, dictSetBm,
      normalize_scores, docA, docB, docC, sortDescBy, insertDescBy, fusedOf, entryToResult,
      VECTOR_WEIGHT, BM25_WEIGHT, min_def, max_def]
  exact fusion_data_from_vector [docA, docB] [docB, docC] 5 (by decide) (by decide)
    _ (by rw [hfr]
          exact List.mem_cons_of_mem _ (List.mem_cons_of_mem _ (List.mem_cons_self _ _)))
    docB (List.mem_cons_of_mem _ (List.mem_cons_self _ _))
    docB (List.mem_cons_self _ _) rfl rfl

end RagCore
